import Mathlib

/-
Shallow embedding of the polygon_canvas scan-line rasterizer.

Source files embedded:
  src/nums.rs                    (rounding / usize-cast semantics)
  src/geometry/{point,line,polygon}.rs
  src/algorithms/scan_line.rs    (namespace ScanLine : polygon_interior)
  src/algorithms/fill_polygon.rs (namespace FillPoly : fill_polygon)

Modelling conventions:
  - Rust f64 is modelled as ℚ (all values arising here are exact).
  - Rust i32/i64 are modelled as ℤ; `/` on integers is Rust's truncating
    division, modelled by Int.div.
  - `as usize` on a signed integer wraps modulo 2^64; on a float it
    truncates toward zero and saturates to [0, 2^64 - 1].
  - The generic numeric parameter T of the Rust code is captured by a
    record NumOps of the operations the trait bounds supply; intOps and
    ratOps are the i32/i64 and f32/f64 instantiations.
-/

namespace PolygonCanvas

def usizeMax : ℕ := 2 ^ 64 - 1

/-- Rust `as usize` on a signed integer: two's-complement wrap. -/
def intAsUsize (n : ℤ) : ℕ := (n % (2 ^ 64 : ℤ)).toNat

/-- Rust `as usize` on a float: truncate toward zero, saturating to the
usize range (negative values go to 0). -/
def f64AsUsize (q : ℚ) : ℕ := if q < 0 then 0 else min ⌊q⌋.toNat usizeMax

/-
The Batteries implementations of Rat.add, Rat.sub, Rat.mul and Rat.div are
@[irreducible], so kernel evaluation (decide) cannot unfold them. The f64
arithmetic of the rasterizer is therefore written with the following
kernel-computable forms; qadd_eq, qsub_eq, qmul_eq and qdiv_eq below prove
them equal to ℚ's +, -, * and /.
-/

/-- Kernel-computable ℚ addition. -/
def qadd (a b : ℚ) : ℚ := mkRat (a.num * b.den + b.num * a.den) (a.den * b.den)

/-- Kernel-computable ℚ subtraction. -/
def qsub (a b : ℚ) : ℚ := mkRat (a.num * b.den - b.num * a.den) (a.den * b.den)

/-- Kernel-computable ℚ multiplication. -/
def qmul (a b : ℚ) : ℚ := mkRat (a.num * b.num) (a.den * b.den)

/-- Kernel-computable ℚ division (0 on a zero divisor, as in ℚ). -/
def qdiv (a b : ℚ) : ℚ := Rat.divInt (a.num * b.den) (a.den * b.num)

/-- geometry/point.rs : Point. -/
structure Point (T : Type) where
  x : T
  y : T
deriving DecidableEq, Repr

/-- geometry/line.rs : Line. Rust's field `end` is a Lean keyword, rendered
here as `stop`. -/
structure Line (T : Type) where
  start : Point T
  stop : Point T
deriving DecidableEq, Repr

/-- Operations the Rust trait bounds (Num + PartialOrd + RoundToUsize +
AsPrimitive of f64) supply for a coordinate type T. Comparison comes from a
LinearOrder instance at use sites. -/
structure NumOps (T : Type) where
  sub : T → T → T
  div : T → T → T
  ceil_self : T → T
  floor_self : T → T
  asF64 : T → ℚ
  asUsize : T → ℕ

/-- nums.rs impl_round_to_self_int + i64 `as` casts: rounding is the
identity, the usize cast wraps. Division is Rust's truncating `/`. -/
def intOps : NumOps ℤ where
  sub := fun a b => a - b
  div := fun a b => Int.tdiv a b
  ceil_self := fun a => a
  floor_self := fun a => a
  asF64 := fun a => (a : ℚ)
  asUsize := intAsUsize

/-- nums.rs impl_round_to_self_float + f64 `as` casts, with f64 modelled
as ℚ. -/
def ratOps : NumOps ℚ where
  sub := qsub
  div := qdiv
  ceil_self := fun a => (⌈a⌉ : ℚ)
  floor_self := fun a => (⌊a⌋ : ℚ)
  asF64 := fun a => a
  asUsize := f64AsUsize

/-- RoundToUsize::ceil_to_usize : ceil_to_self then `as usize`. -/
def NumOps.ceilToUsize (ops : NumOps T) (a : T) : ℕ := ops.asUsize (ops.ceil_self a)

/-- RoundToUsize::floor_to_usize : floor_to_self then `as usize`. -/
def NumOps.floorToUsize (ops : NumOps T) (a : T) : ℕ := ops.asUsize (ops.floor_self a)

/-- line.rs Line::inv_slope : None when the edge is horizontal, otherwise
run-per-unit-rise computed with T's own division. -/
def Line.inv_slope [DecidableEq T] (ops : NumOps T) (l : Line T) : Option T :=
  if l.start.y = l.stop.y then none
  else some (ops.div (ops.sub l.stop.x l.start.x) (ops.sub l.stop.y l.start.y))

/-- line.rs Line::y_min_point. -/
def Line.y_min_point [LinearOrder T] (l : Line T) : Point T :=
  if l.start.y ≤ l.stop.y then l.start else l.stop

/-- line.rs Line::y_max_point (start wins ties, as in the source). -/
def Line.y_max_point [LinearOrder T] (l : Line T) : Point T :=
  if l.stop.y ≤ l.start.y then l.start else l.stop

/-- geometry/polygon.rs : Polygon. -/
structure Polygon (T : Type) where
  vertices : List (Point T)
deriving DecidableEq, Repr

/-- Polygon::edges : each vertex paired with its cyclic successor. -/
def Polygon.edges (p : Polygon T) : List (Line T) :=
  match p.vertices with
  | [] => []
  | v :: vs => List.zipWith Line.mk p.vertices (vs ++ [v])

/-- Helper for Polygon::from_vec : consecutive (x, y) pairs of a flat
coordinate list, in order. -/
def pairUpPoints : List T → List (Point T)
  | x :: y :: rest => ⟨x, y⟩ :: pairUpPoints rest
  | _ => []

/-- polygon.rs Polygon::from_vec : None on an odd-length coordinate list,
otherwise the polygon of consecutive (x, y) pairs. -/
def Polygon.from_vec (v : List T) : Option (Polygon T) :=
  if v.length % 2 ≠ 0 then none else some ⟨pairUpPoints v⟩

/-- canvas.rs CanvasSpec as used by scan_line.rs: x = width, y = height. -/
structure CanvasSpec where
  x : ℕ
  y : ℕ
deriving DecidableEq, Repr

/-- FillRule, defined identically in scan_line.rs and fill_polygon.rs. -/
inductive FillRule where
  | NonZero
  | EvenOdd
deriving DecidableEq, Repr

/-- FillRule::check : nonzero winding count, or odd parity. -/
def FillRule.check : FillRule → ℤ → Bool
  | .NonZero, n => n != 0
  | .EvenOdd, n => n % 2 != 0

/-- scan_line.rs maps each crossing flag by `b as i32 * 2 - 1`. -/
def boolContrib (b : Bool) : ℤ := (if b then 1 else 0) * 2 - 1

/-- Generic edge-table insertion: HashMap::entry(k).push(e), modelled as a
pointwise-updated function from row to the edges listed in insertion
order. -/
def netInsert (net : ℕ → List E) (k : ℕ) (e : E) : ℕ → List E :=
  fun q => if q = k then net q ++ [e] else net q

/-- Generic net_from_polygon fold shared by the two modules: convert each
edge, key it by ceil of the minimum-y endpoint's y. -/
def buildNet (conv : Line T → Option E) (key : Line T → ℕ)
    (lines : List (Line T)) : ℕ → List E :=
  lines.foldl
    (fun net l =>
      match conv l with
      | some e => netInsert net (key l) e
      | none => net)
    (fun _ => [])

/-- NET key of an edge: line.y_min_point().y.ceil_to_usize(). -/
def netKey [LinearOrder T] (ops : NumOps T) (l : Line T) : ℕ :=
  ops.ceilToUsize l.y_min_point.y

/-- Stable insertion by ascending first component, mirroring the stable
`sort_by` on intersection x (a tie keeps earlier elements first). -/
def insertPoint (a : ℚ × α) : List (ℚ × α) → List (ℚ × α)
  | [] => [a]
  | b :: bs => if a.1 < b.1 then a :: b :: bs else b :: insertPoint a bs

/-- Sort a row's crossings by x ascending. -/
def sortPoints : List (ℚ × α) → List (ℚ × α)
  | [] => []
  | a :: rest => insertPoint a (sortPoints rest)

namespace ScanLine

/-- scan_line.rs ScanlineEdge: y_max row, current x intercept, per-row x
increment, orientation flag. -/
structure ScanlineEdge where
  y_max : ℕ
  x : ℚ
  delta_x : ℚ
  is_upwards : Bool
deriving DecidableEq, Repr

/-- scan_line.rs ScanlineEdge::from_line. The Rust stores the T-valued
inv_slope into the f64 fields, so the conversion to f64 happens at the
struct boundary, after T's own division. -/
def ScanlineEdge.from_line [LinearOrder T] (ops : NumOps T) (line : Line T) :
    Option ScanlineEdge :=
  match line.inv_slope ops with
  | none => none
  | some inv_slope =>
    let y_max := line.y_max_point.y
    let x := line.y_min_point.x
    let y_min := line.y_min_point.y
    if ops.ceilToUsize y_max = ops.ceilToUsize y_min then none
    else
      some
        { y_max := ops.floorToUsize y_max
          x := qadd (ops.asF64 x) (qmul (ops.asF64 (ops.sub (ops.ceil_self y_min) y_min)) (ops.asF64 inv_slope))
          delta_x := ops.asF64 inv_slope
          is_upwards := line.start.y < line.stop.y }

/-- scan_line.rs net_from_polygon. -/
def net_from_polygon [LinearOrder T] (ops : NumOps T) (p : Polygon T) :
    ℕ → List ScanlineEdge :=
  buildNet (ScanlineEdge.from_line ops) (netKey ops) p.edges

/-- scan_line.rs ScanlineEdge::shift_down. -/
def ScanlineEdge.shift_down (e : ScanlineEdge) : ScanlineEdge :=
  { e with x := qadd e.delta_x e.x }

/-- scan_line.rs ScanlineEdge::get_intersect. -/
def ScanlineEdge.get_intersect (e : ScanlineEdge) : FillRule → ℚ × Bool
  | .NonZero => (e.x, true)
  | .EvenOdd => (e.x, e.is_upwards)

/-- The three AET maintenance steps of polygon_interior, as separate
operations. Advance every active edge by delta_x. -/
def advanceAet (aet : List ScanlineEdge) : List ScanlineEdge :=
  aet.map ScanlineEdge.shift_down

/-- Merge in the NET edges keyed at the current row. -/
def mergeNew (net : ℕ → List ScanlineEdge) (row : ℕ) (aet : List ScanlineEdge) :
    List ScanlineEdge :=
  aet ++ net row

/-- Retire edges whose y_max lies strictly below the current row. -/
def retireBelow (row : ℕ) (aet : List ScanlineEdge) : List ScanlineEdge :=
  aet.filter (fun e => decide (row ≤ e.y_max))

/-- One row of AET maintenance exactly as polygon_interior performs it:
shift_down every edge, extend with net[row], retain y_max ≥ row. -/
def aetStep (net : ℕ → List ScanlineEdge) (row : ℕ) (aet : List ScanlineEdge) :
    List ScanlineEdge :=
  ((aet.map ScanlineEdge.shift_down) ++ net row).filter (fun e => decide (row ≤ e.y_max))

/-- AET state of polygon_interior when row `row` is processed. -/
def aetAt (net : ℕ → List ScanlineEdge) : ℕ → List ScanlineEdge
  | 0 => aetStep net 0 []
  | r + 1 => aetStep net (r + 1) (aetAt net r)

/-- Inner while loop of polygon_interior: consume the sorted crossings with
x ≤ col, accumulating `b as i32 * 2 - 1` into the running total. -/
def consumeTrack : List (ℚ × Bool) → ℕ → ℤ → List (ℚ × Bool) × ℤ
  | [], _, t => ([], t)
  | p :: ps, col, t =>
    if p.1 ≤ (col : ℚ) then consumeTrack ps col (t + boolContrib p.2) else (p :: ps, t)

/-- Column loop of polygon_interior: one Bool per column, left to right. -/
def rowBoolsAux (rule : FillRule) :
    ℕ → List (ℚ × Bool) → ℤ → ℕ → List Bool
  | 0, _, _, _ => []
  | n + 1, ps, track, col =>
    let s := consumeTrack ps col track
    rule.check s.2 :: rowBoolsAux rule n s.1 s.2 (col + 1)

/-- A full row of the mask from that row's sorted crossing list. -/
def rowBools (rule : FillRule) (ps : List (ℚ × Bool)) (width : ℕ) : List Bool :=
  rowBoolsAux rule width ps 0 0

/-- scan_line.rs polygon_interior. The Array2 of shape (spec.y, spec.x) is
modelled as the list of its rows; a row skipped by the empty-AET shortcut
keeps its all-false initialization. -/
def polygon_interior [LinearOrder T] (ops : NumOps T) (p : Polygon T)
    (spec : CanvasSpec) (rule : FillRule) : List (List Bool) :=
  let net := net_from_polygon ops p
  (List.range spec.y).map fun row =>
    let aet := aetAt net row
    if aet.isEmpty then List.replicate spec.x false
    else rowBools rule (sortPoints (aet.map (fun e => e.get_intersect rule))) spec.x

end ScanLine

/-- Read a mask cell, false outside the stored shape. -/
def maskGet (m : List (List Bool)) (r c : ℕ) : Bool := (m.getD r []).getD c false

namespace FillPoly

/-- fill_polygon.rs ScanlineEdge: like the scan_line one but carrying the
signed direction instead of the Bool flag. -/
structure ScanlineEdge where
  y_max : ℕ
  x : ℚ
  delta_x : ℚ
  direction : ℤ
deriving DecidableEq, Repr

/-- fill_polygon.rs ScanlineEdge::from_line (identical to the scan_line one
except for the direction field). -/
def ScanlineEdge.from_line [LinearOrder T] (ops : NumOps T) (line : Line T) :
    Option ScanlineEdge :=
  match line.inv_slope ops with
  | none => none
  | some inv_slope =>
    let y_max := line.y_max_point.y
    let x := line.y_min_point.x
    let y_min := line.y_min_point.y
    if ops.ceilToUsize y_max = ops.ceilToUsize y_min then none
    else
      some
        { y_max := ops.floorToUsize y_max
          x := qadd (ops.asF64 x) (qmul (ops.asF64 (ops.sub (ops.ceil_self y_min) y_min)) (ops.asF64 inv_slope))
          delta_x := ops.asF64 inv_slope
          direction := if line.start.y < line.stop.y then 1 else -1 }

/-- fill_polygon.rs net_from_polygon. -/
def net_from_polygon [LinearOrder T] (ops : NumOps T) (p : Polygon T) :
    ℕ → List ScanlineEdge :=
  buildNet (ScanlineEdge.from_line ops) (netKey ops) p.edges

/-- fill_polygon.rs ScanlineEdge::shift_down. -/
def ScanlineEdge.shift_down (e : ScanlineEdge) : ScanlineEdge :=
  { e with x := qadd e.delta_x e.x }

/-- fill_polygon.rs ScanlineEdge::get_intersect. -/
def ScanlineEdge.get_intersect (e : ScanlineEdge) : FillRule → ℚ × ℤ
  | .NonZero => (e.x, e.direction)
  | .EvenOdd => (e.x, 1)

/-- Advance every active edge by delta_x. -/
def advanceAet (aet : List ScanlineEdge) : List ScanlineEdge :=
  aet.map ScanlineEdge.shift_down

/-- Merge in the NET edges keyed at the current row. -/
def mergeNew (net : ℕ → List ScanlineEdge) (row : ℕ) (aet : List ScanlineEdge) :
    List ScanlineEdge :=
  aet ++ net row

/-- Retire edges whose y_max is at or below the current row (the retain in
fill_polygon keeps y_max > row). -/
def retireThrough (row : ℕ) (aet : List ScanlineEdge) : List ScanlineEdge :=
  aet.filter (fun e => decide (row < e.y_max))

/-- One row of AET maintenance exactly as fill_polygon performs it:
shift_down every edge, retain y_max > row, then extend with net[row]. -/
def aetStep (net : ℕ → List ScanlineEdge) (row : ℕ) (aet : List ScanlineEdge) :
    List ScanlineEdge :=
  ((aet.map ScanlineEdge.shift_down).filter (fun e => decide (row < e.y_max))) ++ net row

/-- AET state of fill_polygon when row `row` is processed. -/
def aetAt (net : ℕ → List ScanlineEdge) : ℕ → List ScanlineEdge
  | 0 => aetStep net 0 []
  | r + 1 => aetStep net (r + 1) (aetAt net r)

/-- The `scan` stage of the intersection pipeline: prefix-sum the
contributions and test the rule on each running total. -/
def scanChecks (rule : FillRule) : List (ℚ × ℤ) → ℤ → List (ℚ × Bool)
  | [], _ => []
  | p :: ps, s => (p.1, rule.check (s + p.2)) :: scanChecks rule ps (s + p.2)

/-- Tail of `dedup_by` on the Bool component, given the last kept element's
flag carrier. -/
def dedupAux (a : ℚ × Bool) : List (ℚ × Bool) → List (ℚ × Bool)
  | [] => []
  | b :: bs => if b.2 == a.2 then dedupAux a bs else b :: dedupAux b bs

/-- Itertools dedup_by on the Bool component: keep the first element of
every run of equal flags. -/
def dedupChecks : List (ℚ × Bool) → List (ℚ × Bool)
  | [] => []
  | a :: rest => a :: dedupAux a rest

/-- Itertools tuples::<(_, _)> : consecutive disjoint pairs, dropping a
trailing unpaired element. -/
def pairUp : List α → List (α × α)
  | a :: b :: rest => (a, b) :: pairUp rest
  | _ => []

/-- Rust `f64::ceil(x) as usize`. -/
def f64CeilAsUsize (q : ℚ) : ℕ := f64AsUsize (⌈q⌉ : ℚ)

/-- The deduplicated (x, inside-to-the-right) transition list of one row,
before the ceiling conversion: the real-valued span boundaries. -/
def rowBoundaries (rule : FillRule) (aet : List ScanlineEdge) : List (ℚ × Bool) :=
  dedupChecks (scanChecks rule (sortPoints (aet.map (fun e => e.get_intersect rule))) 0)

/-- internal_range of fill_polygon: boundaries, ceiling-converted to
columns, chunked into (low, high) span pairs. -/
def rowSpans (rule : FillRule) (aet : List ScanlineEdge) : List (ℕ × ℕ) :=
  pairUp ((rowBoundaries rule aet).map (fun p => f64CeilAsUsize p.1))

/-- The canvas is modelled as a total pixel function (row, col) → color;
color blending (palette multiply in the source) is kept abstract since the
frame claims only concern which pixels are written. -/
def Canvas (C : Type) := ℕ → ℕ → C

/-- One pixel write: the blend of the background with the polygon color. -/
def writePixel (blend : C → C → C) (color : C) (cv : Canvas C) (row col : ℕ) :
    Canvas C :=
  fun r c => if r = row then (if c = col then blend (cv r c) color else cv r c) else cv r c

/-- The columns written for one span: `for col in low..high`. -/
def spanCols (span : ℕ × ℕ) : List ℕ := List.range' span.1 (span.2 - span.1)

/-- Write one (low, high) span of a row. -/
def paintSpan (blend : C → C → C) (color : C) (row : ℕ) (cv : Canvas C)
    (span : ℕ × ℕ) : Canvas C :=
  (spanCols span).foldl (fun cv col => writePixel blend color cv row col) cv

/-- Write all spans of a row. -/
def paintRow (blend : C → C → C) (color : C) (row : ℕ) (cv : Canvas C)
    (spans : List (ℕ × ℕ)) : Canvas C :=
  spans.foldl (paintSpan blend color row) cv

/-- fill_polygon.rs fill_polygon, over the abstract canvas. -/
def fill_polygon [LinearOrder T] (ops : NumOps T) (blend : C → C → C)
    (cv : Canvas C) (height : ℕ) (p : Polygon T) (color : C) (rule : FillRule) :
    Canvas C :=
  let net := net_from_polygon ops p
  (List.range height).foldl
    (fun cv row =>
      let aet := aetAt net row
      if aet.isEmpty then cv
      else paintRow blend color row cv (rowSpans rule aet))
    cv

/-- Retirement as the spec's sweep contract words it (drop exactly the
edges with y_max strictly below the row), on fill_polygon's edge type; the
code's own retain is retireThrough. -/
def retireBelow (row : ℕ) (aet : List ScanlineEdge) : List ScanlineEdge :=
  aet.filter (fun e => decide (row ≤ e.y_max))

end FillPoly

/-- Signed sum of the crossing contributions at x ≤ col, the quantity the
per-column inside test of polygon_interior tracks. -/
def sumLE (ps : List (ℚ × Bool)) (c : ℕ) : ℤ :=
  ((ps.filter fun p => decide (p.1 ≤ (c : ℚ))).map fun p => boolContrib p.2).sum

/-- The 6-vertex self-intersecting polygon of the two fill-rule regression
tests: (0,0),(20,0),(3,15),(13,3),(8,3),(18,15). -/
def bowtie : Polygon ℤ := ⟨[⟨0, 0⟩, ⟨20, 0⟩, ⟨3, 15⟩, ⟨13, 3⟩, ⟨8, 3⟩, ⟨18, 15⟩]⟩

/-- The square (0,0),(8,0),(8,10),(0,10) with integer coordinates. -/
def square : Polygon ℤ := ⟨[⟨0, 0⟩, ⟨8, 0⟩, ⟨8, 10⟩, ⟨0, 10⟩]⟩

/-- The same square with f64 coordinates. -/
def squareQ : Polygon ℚ := ⟨[⟨0, 0⟩, ⟨8, 0⟩, ⟨8, 10⟩, ⟨0, 10⟩]⟩

/-- The lower triangle (0,0),(7,0),(7,9) of test_scanline_triangle_int. -/
def tri : Polygon ℤ := ⟨[⟨0, 0⟩, ⟨7, 0⟩, ⟨7, 9⟩]⟩

/-- The same triangle with every coordinate converted to f64. -/
def triQ : Polygon ℚ := ⟨[⟨0, 0⟩, ⟨7, 0⟩, ⟨7, 9⟩]⟩

/-- fill_polygon's NET for the integer square. -/
def squareNetF : ℕ → List FillPoly.ScanlineEdge := FillPoly.net_from_polygon intOps square

/-- scan_line's NET for the integer square. -/
def squareNetS : ℕ → List ScanLine.ScanlineEdge := ScanLine.net_from_polygon intOps square

/-- The kernel-computable addition is ℚ's addition. -/
theorem qadd_eq (a b : ℚ) : qadd a b = a + b := by
  have ha : ((a.den : ℚ)) ≠ 0 := by exact_mod_cast a.den_nz
  have hb : ((b.den : ℚ)) ≠ 0 := by exact_mod_cast b.den_nz
  rw [qadd, Rat.mkRat_eq_div]
  conv_rhs => rw [← Rat.num_div_den a, ← Rat.num_div_den b]
  rw [div_add_div _ _ ha hb]
  push_cast
  ring_nf

/-- The kernel-computable subtraction is ℚ's subtraction. -/
theorem qsub_eq (a b : ℚ) : qsub a b = a - b := by
  have ha : ((a.den : ℚ)) ≠ 0 := by exact_mod_cast a.den_nz
  have hb : ((b.den : ℚ)) ≠ 0 := by exact_mod_cast b.den_nz
  rw [qsub, Rat.mkRat_eq_div]
  conv_rhs => rw [← Rat.num_div_den a, ← Rat.num_div_den b]
  rw [div_sub_div _ _ ha hb]
  push_cast
  ring_nf

/-- The kernel-computable multiplication is ℚ's multiplication. -/
theorem qmul_eq (a b : ℚ) : qmul a b = a * b := by
  rw [qmul, Rat.mkRat_eq_div]
  conv_rhs => rw [← Rat.num_div_den a, ← Rat.num_div_den b]
  rw [div_mul_div_comm]
  push_cast
  ring_nf

/-- The kernel-computable division is ℚ's division. -/
theorem qdiv_eq (a b : ℚ) : qdiv a b = a / b := by
  rw [qdiv, Rat.divInt_eq_div]
  rcases eq_or_ne b 0 with rfl | hb0
  · simp
  · have ha : ((a.den : ℚ)) ≠ 0 := by exact_mod_cast a.den_nz
    have hbd : ((b.den : ℚ)) ≠ 0 := by exact_mod_cast b.den_nz
    have hbn : ((b.num : ℚ)) ≠ 0 := by
      exact_mod_cast Rat.num_ne_zero.mpr hb0
    conv_rhs => rw [← Rat.num_div_den a, ← Rat.num_div_den b]
    push_cast
    field_simp

set_option maxRecDepth 400000 in
/-- Claim C1: for the 6-vertex self-intersecting polygon
(0,0),(20,0),(3,15),(13,3),(8,3),(18,15) on a 30-wide, 20-high canvas,
polygon_interior marks the overlap pixel at row 7, column 10 interior under
FillRule::NonZero and exterior under FillRule::EvenOdd. -/
theorem C1_bowtie_rules_differ :
    maskGet (ScanLine.polygon_interior intOps bowtie ⟨30, 20⟩ .NonZero) 7 10 = true ∧
    maskGet (ScanLine.polygon_interior intOps bowtie ⟨30, 20⟩ .EvenOdd) 7 10 = false := by
  decide

set_option maxRecDepth 400000 in
/-- Claim C5: polygon_interior on the square (0,0),(8,0),(8,10),(0,10) over
an 8-wide, 10-high canvas under NonZero marks every pixel interior: the
mask is all true (shown for the integer and the f64 coordinates alike). -/
theorem C5_square_all_interior :
    ScanLine.polygon_interior intOps square ⟨8, 10⟩ .NonZero =
      List.replicate 10 (List.replicate 8 true) ∧
    ScanLine.polygon_interior ratOps squareQ ⟨8, 10⟩ .NonZero =
      List.replicate 10 (List.replicate 8 true) := by
  constructor <;> decide

set_option maxRecDepth 400000 in
/-- Claim C7: evaluation at the failing input. For the integer triangle
(0,0),(7,0),(7,9) on an 8-wide, 10-high canvas under NonZero, the integer
run marks pixel (row 9, col 0) interior — Line::inv_slope divides in T, so
7/9 truncates to 0 and the hypotenuse stays vertical at x = 0 — while the
same polygon with f64 coordinates marks it exterior. The crate's own
test_scanline_triangle_int asserts this pixel is exterior. -/
theorem C7_int_float_masks_differ :
    maskGet (ScanLine.polygon_interior intOps tri ⟨8, 10⟩ .NonZero) 9 0 = true ∧
    maskGet (ScanLine.polygon_interior ratOps triQ ⟨8, 10⟩ .NonZero) 9 0 = false ∧
    ScanLine.polygon_interior intOps tri ⟨8, 10⟩ .NonZero ≠
      ScanLine.polygon_interior ratOps triQ ⟨8, 10⟩ .NonZero := by
  refine ⟨by decide, by decide, by decide⟩

/-- Claim C9: a canvas spec with zero width or zero height yields the empty
all-false mask of that shape, for every polygon, coordinate type and fill
rule. -/
theorem C9_degenerate_canvas {T : Type} [LinearOrder T] (ops : NumOps T)
    (p : Polygon T) (rule : FillRule) (w h : ℕ) :
    ScanLine.polygon_interior ops p ⟨0, h⟩ rule = List.replicate h [] ∧
    ScanLine.polygon_interior ops p ⟨w, 0⟩ rule = [] := by
  constructor
  · show (List.range h).map _ = _
    induction h with
    | zero => rfl
    | succ n ih =>
      rw [List.range_succ, List.map_append, ih, List.replicate_succ']
      simp only [List.map_cons, List.map_nil, List.append_cancel_left_eq]
      show [if _ then List.replicate 0 false else ScanLine.rowBools rule _ 0] = [[]]
      split <;> rfl
  · rfl

theorem pairUpPoints_length : ∀ (v : List T), (pairUpPoints v).length = v.length / 2
  | [] => by simp [pairUpPoints]
  | [_] => by simp [pairUpPoints]
  | x :: y :: rest => by
    show (pairUpPoints rest).length + 1 = (rest.length + 1 + 1) / 2
    rw [pairUpPoints_length rest]
    omega

theorem pairUpPoints_get : ∀ (v : List T), v.length % 2 = 0 → ∀ (i : ℕ),
    ((pairUpPoints v)[i]?.map Point.x = v[2 * i]?) ∧
    ((pairUpPoints v)[i]?.map Point.y = v[2 * i + 1]?)
  | [], _, i => by simp [pairUpPoints]
  | [_], h, i => by simp at h
  | x :: y :: rest, h, i => by
    have hr : rest.length % 2 = 0 := by
      have : (x :: y :: rest).length = rest.length + 2 := by simp
      omega
    match i with
    | 0 => simp [pairUpPoints]
    | i + 1 =>
      have ih := pairUpPoints_get rest hr i
      have e2 : 2 * (i + 1) = (2 * i + 1) + 1 := by ring
      simp only [pairUpPoints, e2, List.getElem?_cons_succ]
      exact ih

/-- Claim C8: Polygon::from_vec is None exactly on odd-length coordinate
lists; on any even-length list (the empty one included) it is Some polygon
whose i-th vertex is the pair of the input's coordinates at 2i and 2i+1,
and the vertex count is half the input length. -/
theorem C8_from_vec (v : List T) :
    (Polygon.from_vec v = none ↔ v.length % 2 = 1) ∧
    ∀ p, Polygon.from_vec v = some p →
      p.vertices.length = v.length / 2 ∧
      ∀ i, (p.vertices[i]?.map Point.x = v[2 * i]?) ∧
           (p.vertices[i]?.map Point.y = v[2 * i + 1]?) := by
  constructor
  · rw [Polygon.from_vec]
    split
    · simp only [true_iff]
      omega
    · simp only [reduceCtorEq, false_iff]
      omega
  · intro p hp
    rw [Polygon.from_vec] at hp
    split at hp
    · exact absurd hp (by simp)
    · have heven : v.length % 2 = 0 := by omega
      obtain rfl : (⟨pairUpPoints v⟩ : Polygon T) = p := Option.some_injective _ hp
      exact ⟨pairUpPoints_length v, pairUpPoints_get v heven⟩

/-- Witness for C8: the even-length list [0,0,2,0,2,2] yields a 3-vertex
polygon whose second vertex is (2, 0). -/
theorem C8_from_vec_witness :
    (⟨pairUpPoints [(0 : ℤ), 0, 2, 0, 2, 2]⟩ : Polygon ℤ).vertices.length = 3 ∧
    ((⟨pairUpPoints [(0 : ℤ), 0, 2, 0, 2, 2]⟩ : Polygon ℤ).vertices[1]?.map Point.x = some 2) := by
  have h := (C8_from_vec [(0 : ℤ), 0, 2, 0, 2, 2]).2 ⟨pairUpPoints [(0 : ℤ), 0, 2, 0, 2, 2]⟩ rfl
  exact ⟨h.1, (h.2 1).1⟩

/-- Counterexample to C2: the downward edge built from the line
(0,5) → (0,0) has direction −1, yet under FillRule::NonZero the scan_line
module's get_intersect flags it true, so polygon_interior adds +1 for it —
not the edge's direction. -/
theorem C2_counterexample :
    (ScanLine.ScanlineEdge.from_line intOps ⟨⟨0, 5⟩, ⟨0, 0⟩⟩).map
        (fun e => boolContrib (e.get_intersect .NonZero).2) = some 1 ∧
    (ScanLine.ScanlineEdge.from_line intOps ⟨⟨0, 5⟩, ⟨0, 0⟩⟩).map
        (fun e => if e.is_upwards then (1 : ℤ) else -1) = some (-1) := by
  decide

/-- Claim C2 as amended: fill_polygon adds the edge's direction under
NonZero and a uniform +1 under EvenOdd, while polygon_interior has the two
roles swapped — a uniform +1 under NonZero and the direction (+1 upward,
−1 downward) under EvenOdd; in both, from_line records +1 exactly when the
original start has smaller y than its end, and a column is inside exactly
when the running total is nonzero (NonZero) or odd (EvenOdd). -/
theorem C2_amended_contributions :
    (∀ e : ScanLine.ScanlineEdge,
        boolContrib (e.get_intersect .NonZero).2 = 1 ∧
        boolContrib (e.get_intersect .EvenOdd).2 = (if e.is_upwards then 1 else -1)) ∧
    (∀ f : FillPoly.ScanlineEdge,
        f.get_intersect .NonZero = (f.x, f.direction) ∧
        f.get_intersect .EvenOdd = (f.x, 1)) ∧
    (∀ n : ℤ,
        (FillRule.check .NonZero n = true ↔ n ≠ 0) ∧
        (FillRule.check .EvenOdd n = true ↔ Odd n)) ∧
    (∀ (T : Type) [LinearOrder T] (ops : NumOps T) (l : Line T) e,
        ScanLine.ScanlineEdge.from_line ops l = some e →
        e.is_upwards = decide (l.start.y < l.stop.y)) ∧
    (∀ (T : Type) [LinearOrder T] (ops : NumOps T) (l : Line T) f,
        FillPoly.ScanlineEdge.from_line ops l = some f →
        f.direction = if l.start.y < l.stop.y then 1 else -1) := by
  refine ⟨?_, ?_, ?_, ?_, ?_⟩
  · intro e
    cases h : e.is_upwards <;>
      simp [ScanLine.ScanlineEdge.get_intersect, boolContrib, h]
  · intro f
    exact ⟨rfl, rfl⟩
  · intro n
    constructor
    · simp [FillRule.check]
    · simp only [FillRule.check, bne_iff_ne, ne_eq, Int.odd_iff]
      omega
  · intro T _ ops l e hp
    rw [ScanLine.ScanlineEdge.from_line] at hp
    rcases hl : l.inv_slope ops with _ | inv <;> rw [hl] at hp
    · exact absurd hp (by simp)
    · dsimp only at hp
      split at hp
      · exact absurd hp (by simp)
      · injection hp with h
        subst h
        rfl
  · intro T _ ops l f hp
    rw [FillPoly.ScanlineEdge.from_line] at hp
    rcases hl : l.inv_slope ops with _ | inv <;> rw [hl] at hp
    · exact absurd hp (by simp)
    · dsimp only at hp
      split at hp
      · exact absurd hp (by simp)
      · injection hp with h
        subst h
        rfl

/-- Witness for C2's amended claim at the concrete downward line
(0,5) → (0,0) and the concrete total 3. -/
theorem C2_amended_witness :
    boolContrib ((ScanLine.ScanlineEdge.mk 5 0 0 false).get_intersect .NonZero).2 = 1 ∧
    (ScanLine.ScanlineEdge.mk 5 0 0 false).is_upwards
      = decide ((⟨⟨0, 5⟩, ⟨0, 0⟩⟩ : Line ℤ).start.y < (⟨⟨0, 5⟩, ⟨0, 0⟩⟩ : Line ℤ).stop.y) ∧
    (FillPoly.ScanlineEdge.mk 5 0 0 (-1)).direction
      = (if (⟨⟨0, 5⟩, ⟨0, 0⟩⟩ : Line ℤ).start.y < (⟨⟨0, 5⟩, ⟨0, 0⟩⟩ : Line ℤ).stop.y then 1 else -1) ∧
    (FillRule.check .NonZero 3 = true ↔ (3 : ℤ) ≠ 0) := by
  refine ⟨(C2_amended_contributions.1 _).1, ?_, ?_, (C2_amended_contributions.2.2.1 3).1⟩
  · exact C2_amended_contributions.2.2.2.1 ℤ intOps _ _ (by decide)
  · exact C2_amended_contributions.2.2.2.2 ℤ intOps _ _ (by decide)

set_option maxRecDepth 400000 in
/-- Counterexample to C3: in fill_polygon the square's two vertical edges
have y_max = 10; at row 10 the code's update (advance → retire y_max ≤ row
→ merge) leaves the AET empty, while the claimed order (advance → merge →
retire only y_max < row) would keep both edges active. -/
theorem C3_counterexample :
    FillPoly.aetStep squareNetF 10 (FillPoly.aetAt squareNetF 9) ≠
      FillPoly.retireBelow 10
        (FillPoly.mergeNew squareNetF 10
          (FillPoly.advanceAet (FillPoly.aetAt squareNetF 9))) := by
  decide

/-- Claim C3 as amended: polygon_interior updates the AET in the order
advance → merge-new → retire (dropping exactly y_max < row, so an edge with
y_max = row is still active at its y_max row); fill_polygon instead updates
advance → retire (dropping y_max ≤ row) → merge-new, so a previously active
edge with y_max = row is already gone at row, and an edge surviving the
update either has y_max > row or was merged at this row. -/
theorem C3_amended_order :
    (∀ (net : ℕ → List ScanLine.ScanlineEdge) (row : ℕ) (aet : List ScanLine.ScanlineEdge),
        ScanLine.aetStep net row aet =
          ScanLine.retireBelow row (ScanLine.mergeNew net row (ScanLine.advanceAet aet)) ∧
        ∀ e ∈ ScanLine.aetStep net row aet, row ≤ e.y_max) ∧
    (∀ (net : ℕ → List FillPoly.ScanlineEdge) (row : ℕ) (aet : List FillPoly.ScanlineEdge),
        FillPoly.aetStep net row aet =
          FillPoly.mergeNew net row (FillPoly.retireThrough row (FillPoly.advanceAet aet)) ∧
        ∀ e ∈ FillPoly.aetStep net row aet, row < e.y_max ∨ e ∈ net row) := by
  constructor
  · intro net row aet
    refine ⟨rfl, ?_⟩
    intro e he
    simp only [ScanLine.aetStep, List.mem_filter, decide_eq_true_eq] at he
    exact he.2
  · intro net row aet
    refine ⟨rfl, ?_⟩
    intro e he
    simp only [FillPoly.aetStep, List.mem_append, List.mem_filter,
      decide_eq_true_eq] at he
    tauto

/-- Witness for C3's amended claim: the code order and both membership
consequences at concrete AETs and rows. -/
theorem C3_amended_witness :
    ScanLine.aetStep squareNetS 3 [] =
      ScanLine.retireBelow 3 (ScanLine.mergeNew squareNetS 3 (ScanLine.advanceAet [])) ∧
    (10 < (FillPoly.ScanlineEdge.mk 12 0 0 1).y_max ∨
      (FillPoly.ScanlineEdge.mk 12 0 0 1) ∈ squareNetF 10) := by
  refine ⟨(C3_amended_order.1 squareNetS 3 []).1, ?_⟩
  exact (C3_amended_order.2 squareNetF 10 [FillPoly.ScanlineEdge.mk 12 0 0 1]).2 _ (by decide)

theorem buildNet_apply (conv : Line T → Option E) (key : Line T → ℕ) (k : ℕ)
    (lines : List (Line T)) :
    buildNet conv key lines k =
      (lines.filter fun l => decide (key l = k)).filterMap conv := by
  suffices h : ∀ (ls : List (Line T)) (acc : ℕ → List E),
      (ls.foldl (fun net l =>
        match conv l with
        | some e => netInsert net (key l) e
        | none => net) acc) k
        = acc k ++ (ls.filter fun l => decide (key l = k)).filterMap conv by
    simpa [buildNet] using h lines (fun _ => [])
  intro ls
  induction ls with
  | nil => intro acc; simp
  | cons l t ih =>
    intro acc
    rw [List.foldl_cons, List.filter_cons]
    cases hc : conv l with
    | none =>
      simp only [hc]
      rw [ih acc]
      split
      · rw [List.filterMap_cons_none hc]
      · rfl
    | some e =>
      simp only [hc]
      rw [ih (netInsert acc (key l) e)]
      by_cases hk : key l = k
      · subst hk
        simp [netInsert, List.filterMap_cons, hc]
      · have hk' : ¬(k = key l) := fun h => hk h.symm
        simp [netInsert, hk, hk']

/-- Either from_line returns none exactly on horizontal edges and edges
whose discretized rows coincide. Stated generically over the coordinate
operations; shared by the two modules' conversions. -/
theorem scan_from_line_none_iff [LinearOrder T] (ops : NumOps T) (l : Line T) :
    ScanLine.ScanlineEdge.from_line ops l = none ↔
      l.start.y = l.stop.y ∨
        ops.ceilToUsize l.y_max_point.y = ops.ceilToUsize l.y_min_point.y := by
  rw [ScanLine.ScanlineEdge.from_line, Line.inv_slope]
  by_cases h : l.start.y = l.stop.y
  · simp [h]
  · rw [if_neg h]
    dsimp only
    split
    next hceil => simp [h, hceil]
    next hceil => simp [h, hceil]

/-- Claim C4: net_from_polygon silently drops exactly the horizontal edges
(start.y = end.y) and the edges whose min-y and max-y ceilings coincide;
every other edge contributes exactly one ScanlineEdge, listed in traversal
order under the key netKey, the ceiling of its minimum-y endpoint's y.
Stated for f64 and for integer coordinates. -/
theorem C4_net_excludes_degenerate :
    (∀ (p : Polygon ℚ) (k : ℕ),
        ScanLine.net_from_polygon ratOps p k =
          (p.edges.filter fun l => decide (netKey ratOps l = k)).filterMap
            (ScanLine.ScanlineEdge.from_line ratOps)) ∧
    (∀ l : Line ℚ,
        ScanLine.ScanlineEdge.from_line ratOps l = none ↔
          l.start.y = l.stop.y ∨
            ratOps.ceilToUsize l.y_max_point.y = ratOps.ceilToUsize l.y_min_point.y) ∧
    (∀ (p : Polygon ℤ) (k : ℕ),
        ScanLine.net_from_polygon intOps p k =
          (p.edges.filter fun l => decide (netKey intOps l = k)).filterMap
            (ScanLine.ScanlineEdge.from_line intOps)) ∧
    (∀ l : Line ℤ,
        ScanLine.ScanlineEdge.from_line intOps l = none ↔
          l.start.y = l.stop.y ∨
            intOps.ceilToUsize l.y_max_point.y = intOps.ceilToUsize l.y_min_point.y) :=
  ⟨fun p k => buildNet_apply _ _ k p.edges,
   fun l => scan_from_line_none_iff ratOps l,
   fun p k => buildNet_apply _ _ k p.edges,
   fun l => scan_from_line_none_iff intOps l⟩

theorem insertPoint_perm {α : Type} (a : ℚ × α) :
    ∀ l : List (ℚ × α), (insertPoint a l).Perm (a :: l)
  | [] => List.Perm.refl _
  | b :: bs => by
    rw [insertPoint]
    split
    · exact List.Perm.refl _
    · exact ((insertPoint_perm a bs).cons b).trans (List.Perm.swap a b bs)

theorem sortPoints_perm {α : Type} : ∀ l : List (ℚ × α), (sortPoints l).Perm l
  | [] => List.Perm.refl _
  | a :: rest =>
    (insertPoint_perm a (sortPoints rest)).trans ((sortPoints_perm rest).cons a)

theorem insertPoint_pairwise {α : Type} (a : ℚ × α) :
    ∀ l : List (ℚ × α), List.Pairwise (fun p q => p.1 ≤ q.1) l →
      List.Pairwise (fun p q => p.1 ≤ q.1) (insertPoint a l)
  | [], _ => List.pairwise_singleton _ a
  | b :: bs, h => by
    rw [insertPoint]
    obtain ⟨hb, hbs⟩ := List.pairwise_cons.mp h
    split
    next hab =>
      refine List.pairwise_cons.mpr ⟨?_, h⟩
      intro q hq
      rcases List.mem_cons.mp hq with rfl | hq
      · exact le_of_lt hab
      · exact le_of_lt (lt_of_lt_of_le hab (hb q hq))
    next hab =>
      refine List.pairwise_cons.mpr ⟨?_, insertPoint_pairwise a bs hbs⟩
      intro q hq
      rcases List.mem_cons.mp ((insertPoint_perm a bs).mem_iff.mp hq) with rfl | hq
      · exact le_of_not_lt hab
      · exact hb q hq

theorem sortPoints_pairwise {α : Type} :
    ∀ l : List (ℚ × α), List.Pairwise (fun p q => p.1 ≤ q.1) (sortPoints l)
  | [] => List.Pairwise.nil
  | a :: rest => insertPoint_pairwise a (sortPoints rest) (sortPoints_pairwise rest)

theorem consumeTrack_eq : ∀ (ps : List (ℚ × Bool)) (col : ℕ) (t : ℤ),
    ScanLine.consumeTrack ps col t =
      (ps.dropWhile fun p => decide (p.1 ≤ (col : ℚ)),
       t + ((ps.takeWhile fun p => decide (p.1 ≤ (col : ℚ))).map
              fun p => boolContrib p.2).sum)
  | [], col, t => by simp [ScanLine.consumeTrack]
  | p :: ps, col, t => by
    rw [ScanLine.consumeTrack]
    by_cases h : p.1 ≤ (col : ℚ)
    · rw [if_pos h, consumeTrack_eq ps col (t + boolContrib p.2),
        List.dropWhile_cons_of_pos (by simpa using h),
        List.takeWhile_cons_of_pos (by simpa using h)]
      simp only [List.map_cons, List.sum_cons]
      rw [add_assoc]
    · rw [if_neg h, List.dropWhile_cons_of_neg (by simpa using h),
        List.takeWhile_cons_of_neg (by simpa using h)]
      simp

theorem sorted_filter_eq_takeWhile (c : ℚ) :
    ∀ ps : List (ℚ × Bool), List.Pairwise (fun p q => p.1 ≤ q.1) ps →
      ps.filter (fun p => decide (p.1 ≤ c)) = ps.takeWhile (fun p => decide (p.1 ≤ c))
  | [], _ => rfl
  | p :: ps, h => by
    obtain ⟨hp1, hps⟩ := List.pairwise_cons.mp h
    by_cases hp : p.1 ≤ c
    · rw [List.filter_cons_of_pos (by simpa using hp),
        List.takeWhile_cons_of_pos (by simpa using hp),
        sorted_filter_eq_takeWhile c ps hps]
    · rw [List.filter_cons_of_neg (by simpa using hp),
        List.takeWhile_cons_of_neg (by simpa using hp),
        List.filter_eq_nil_iff]
      intro q hq
      simp only [decide_eq_true_eq]
      exact fun hqc => hp (le_trans (hp1 q hq) hqc)

theorem sumLE_perm {ps qs : List (ℚ × Bool)} (h : ps.Perm qs) (c : ℕ) :
    sumLE ps c = sumLE qs c :=
  List.Perm.sum_eq ((h.filter _).map _)

theorem sumLE_split (ps : List (ℚ × Bool)) (col m : ℕ) (hm : col ≤ m) :
    sumLE ps m =
      ((ps.takeWhile fun p => decide (p.1 ≤ (col : ℚ))).map
          fun p => boolContrib p.2).sum +
        sumLE (ps.dropWhile fun p => decide (p.1 ≤ (col : ℚ))) m := by
  have htw : (ps.takeWhile fun p => decide (p.1 ≤ (col : ℚ))).filter
      (fun p => decide (p.1 ≤ (m : ℚ))) =
      ps.takeWhile fun p => decide (p.1 ≤ (col : ℚ)) := by
    apply List.filter_eq_self.mpr
    intro q hq
    have h1 : q.1 ≤ (col : ℚ) := by
      simpa using List.mem_takeWhile_imp hq
    have h2 : (col : ℚ) ≤ (m : ℚ) := by exact_mod_cast hm
    simpa using le_trans h1 h2
  conv_lhs =>
    rw [← List.takeWhile_append_dropWhile (p := fun p => decide (p.1 ≤ (col : ℚ))) (l := ps)]
  rw [sumLE, List.filter_append, List.map_append, List.sum_append, htw]
  rfl

theorem rowBoolsAux_getD (rule : FillRule) :
    ∀ (n : ℕ) (ps : List (ℚ × Bool)) (t : ℤ) (col j : ℕ),
      List.Pairwise (fun p q => p.1 ≤ q.1) ps → j < n →
      (ScanLine.rowBoolsAux rule n ps t col).getD j false =
        rule.check (t + sumLE ps (col + j))
  | 0, _, _, _, j, _, hj => absurd hj (Nat.not_lt_zero j)
  | n + 1, ps, t, col, j, hs, hj => by
    rw [ScanLine.rowBoolsAux, consumeTrack_eq]
    match j with
    | 0 =>
      show rule.check _ = rule.check (t + sumLE ps (col + 0))
      congr 1
      rw [Nat.add_zero, sumLE, sorted_filter_eq_takeWhile _ ps hs]
    | j + 1 =>
      show (ScanLine.rowBoolsAux rule n _ _ (col + 1)).getD j false = _
      rw [rowBoolsAux_getD rule n _ _ (col + 1) j
        (hs.sublist (List.dropWhile_sublist _)) (Nat.lt_of_succ_lt_succ hj)]
      dsimp only
      rw [show col + (j + 1) = col + 1 + j from by omega,
        sumLE_split ps col (col + 1 + j) (by omega), add_assoc]

/-- The per-column inside test of polygon_interior: column c of a row is
marked by the rule's check of the signed sum of the contributions of the
crossings at x ≤ c. -/
theorem rowBools_getD (rule : FillRule) (pts : List (ℚ × Bool)) (width c : ℕ)
    (hc : c < width) :
    (ScanLine.rowBools rule (sortPoints pts) width).getD c false =
      rule.check (sumLE pts c) := by
  rw [ScanLine.rowBools,
    rowBoolsAux_getD rule width (sortPoints pts) 0 0 c (sortPoints_pairwise pts) hc,
    zero_add, Nat.zero_add, sumLE_perm (sortPoints_perm pts) c]

theorem foldl_writePixel_ne {C : Type} (blend : C → C → C) (color : C) (row : ℕ) :
    ∀ (cols : List ℕ) (cv : FillPoly.Canvas C) (r c : ℕ),
      r ≠ row ∨ c ∉ cols →
      (cols.foldl (fun cv col => FillPoly.writePixel blend color cv row col) cv) r c = cv r c
  | [], _, _, _, _ => rfl
  | col :: cols, cv, r, c, h => by
    rw [List.foldl_cons]
    have h2 : r ≠ row ∨ c ∉ cols := by
      rcases h with h | h
      · exact Or.inl h
      · exact Or.inr fun hc => h (List.mem_cons_of_mem _ hc)
    rw [foldl_writePixel_ne blend color row cols _ r c h2]
    show (if r = row then (if c = col then blend (cv r c) color else cv r c) else cv r c) = cv r c
    rcases h with h | h
    · rw [if_neg h]
    · have hcc : c ≠ col := fun e => h (e ▸ List.mem_cons_self col cols)
      by_cases hr : r = row
      · rw [if_pos hr, if_neg hcc]
      · rw [if_neg hr]

theorem foldl_writePixel_mem {C : Type} (blend : C → C → C) (color : C) (row : ℕ) :
    ∀ (cols : List ℕ) (cv : FillPoly.Canvas C) (c : ℕ), cols.Nodup → c ∈ cols →
      (cols.foldl (fun cv col => FillPoly.writePixel blend color cv row col) cv) row c =
        blend (cv row c) color
  | [], _, c, _, hm => absurd hm (List.not_mem_nil c)
  | col :: cols, cv, c, hnd, hm => by
    rw [List.foldl_cons]
    obtain ⟨hncol, hnd2⟩ := List.nodup_cons.mp hnd
    rcases List.mem_cons.mp hm with rfl | hc
    · rw [foldl_writePixel_ne blend color row cols _ row c (Or.inr hncol)]
      show (if row = row then (if c = c then blend (cv row c) color else cv row c) else cv row c)
        = blend (cv row c) color
      rw [if_pos rfl, if_pos rfl]
    · rw [foldl_writePixel_mem blend color row cols _ c hnd2 hc]
      have hcc : c ≠ col := fun e => hncol (e ▸ hc)
      have hw : FillPoly.writePixel blend color cv row col row c = cv row c := by
        show (if row = row then (if c = col then blend (cv row c) color else cv row c) else cv row c)
          = cv row c
        rw [if_pos rfl, if_neg hcc]
      rw [hw]

theorem paintSpan_ne {C : Type} (blend : C → C → C) (color : C) (row : ℕ)
    (cv : FillPoly.Canvas C) (span : ℕ × ℕ) (r c : ℕ)
    (h : r ≠ row ∨ c ∉ FillPoly.spanCols span) :
    FillPoly.paintSpan blend color row cv span r c = cv r c :=
  foldl_writePixel_ne blend color row (FillPoly.spanCols span) cv r c h

theorem paintSpan_mem {C : Type} (blend : C → C → C) (color : C) (row : ℕ)
    (cv : FillPoly.Canvas C) (span : ℕ × ℕ) (c : ℕ)
    (h : c ∈ FillPoly.spanCols span) :
    FillPoly.paintSpan blend color row cv span row c = blend (cv row c) color :=
  foldl_writePixel_mem blend color row (FillPoly.spanCols span) cv c
    (List.nodup_range' ..) h

theorem mem_spanCols (lo hi c : ℕ) :
    c ∈ FillPoly.spanCols (lo, hi) ↔ lo ≤ c ∧ c < hi := by
  simp only [FillPoly.spanCols, List.mem_range'_1]
  omega

theorem paintRow_ne {C : Type} (blend : C → C → C) (color : C) (row : ℕ) :
    ∀ (spans : List (ℕ × ℕ)) (cv : FillPoly.Canvas C) (r c : ℕ),
      (r ≠ row ∨ ∀ s ∈ spans, c ∉ FillPoly.spanCols s) →
      FillPoly.paintRow blend color row cv spans r c = cv r c
  | [], _, _, _, _ => rfl
  | sp :: spans, cv, r, c, h => by
    have h1 : r ≠ row ∨ c ∉ FillPoly.spanCols sp := by
      rcases h with h | h
      · exact Or.inl h
      · exact Or.inr (h sp (List.mem_cons_self sp spans))
    have h2 : r ≠ row ∨ ∀ s ∈ spans, c ∉ FillPoly.spanCols s := by
      rcases h with h | h
      · exact Or.inl h
      · exact Or.inr fun s hs => h s (List.mem_cons_of_mem sp hs)
    show FillPoly.paintRow blend color row
      (FillPoly.paintSpan blend color row cv sp) spans r c = cv r c
    rw [paintRow_ne blend color row spans _ r c h2,
      paintSpan_ne blend color row cv sp r c h1]

theorem pairUp_map {α β : Type} (f : α → β) :
    ∀ l : List α,
      FillPoly.pairUp (l.map f) = (FillPoly.pairUp l).map fun q => (f q.1, f q.2)
  | [] => rfl
  | [_] => rfl
  | a :: b :: rest => by
    simp only [List.map_cons, FillPoly.pairUp, pairUp_map f rest]

theorem f64CeilAsUsize_spec (q : ℚ) (c : ℕ) (h0 : 0 ≤ q) (hm : q ≤ (usizeMax : ℚ)) :
    (FillPoly.f64CeilAsUsize q ≤ c ↔ q ≤ (c : ℚ)) ∧
    (c < FillPoly.f64CeilAsUsize q ↔ (c : ℚ) < q) := by
  have hceil0 : (0 : ℤ) ≤ ⌈q⌉ := Int.ceil_nonneg h0
  have hcast : ¬((⌈q⌉ : ℚ) < 0) := not_lt.mpr (by exact_mod_cast hceil0)
  have hle : ⌈q⌉ ≤ (usizeMax : ℤ) := Int.ceil_le.mpr (by exact_mod_cast hm)
  have hval : FillPoly.f64CeilAsUsize q = ⌈q⌉.toNat := by
    rw [FillPoly.f64CeilAsUsize, f64AsUsize, if_neg hcast, Int.floor_intCast]
    exact min_eq_left (by omega)
  rw [hval]
  constructor
  · rw [Int.toNat_le]
    exact_mod_cast Int.ceil_le
  · rw [Int.lt_toNat]
    exact_mod_cast Int.lt_ceil

theorem fill_fold_ne {C : Type} (blend : C → C → C) (color : C)
    (net : ℕ → List FillPoly.ScanlineEdge) (rule : FillRule) :
    ∀ (rows : List ℕ) (cv : FillPoly.Canvas C) (r c : ℕ),
      (∀ row ∈ rows, r ≠ row ∨
        ∀ s ∈ FillPoly.rowSpans rule (FillPoly.aetAt net row), c ∉ FillPoly.spanCols s) →
      (rows.foldl
        (fun cv row =>
          let aet := FillPoly.aetAt net row
          if aet.isEmpty then cv
          else FillPoly.paintRow blend color row cv (FillPoly.rowSpans rule aet)) cv) r c
        = cv r c
  | [], _, _, _, _ => rfl
  | row :: rows, cv, r, c, h => by
    rw [List.foldl_cons,
      fill_fold_ne blend color net rule rows _ r c
        (fun rr hrr => h rr (List.mem_cons_of_mem _ hrr))]
    split
    · rfl
    · exact paintRow_ne blend color row _ cv r c (h row (List.mem_cons_self row rows))

/-- Claim C10: fill_polygon leaves every pixel untouched whose column lies
outside all computed spans of its row — in particular every pixel of a row
whose active edge table is empty. -/
theorem C10_fill_frame {T : Type} [LinearOrder T] {C : Type} (ops : NumOps T)
    (blend : C → C → C) (cv : FillPoly.Canvas C) (height : ℕ) (p : Polygon T)
    (color : C) (rule : FillRule) (r c : ℕ) :
    ((∀ lo hi,
        (lo, hi) ∈ FillPoly.rowSpans rule
          (FillPoly.aetAt (FillPoly.net_from_polygon ops p) r) →
        ¬(lo ≤ c ∧ c < hi)) →
      FillPoly.fill_polygon ops blend cv height p color rule r c = cv r c) ∧
    (FillPoly.aetAt (FillPoly.net_from_polygon ops p) r = [] →
      FillPoly.fill_polygon ops blend cv height p color rule r c = cv r c) := by
  constructor
  · intro h
    show (List.range height).foldl _ cv r c = cv r c
    apply fill_fold_ne
    intro row _
    by_cases hr : r = row
    · subst hr
      refine Or.inr fun s hs hcs => ?_
      exact h s.1 s.2 hs ((mem_spanCols s.1 s.2 c).mp hcs)
    · exact Or.inl hr
  · intro h
    show (List.range height).foldl _ cv r c = cv r c
    apply fill_fold_ne
    intro row _
    by_cases hr : r = row
    · subst hr
      refine Or.inr fun s hs => ?_
      rw [h] at hs
      exact absurd hs (List.not_mem_nil s)
    · exact Or.inl hr

/-- Witness for C10 on the integer square over a height-20 canvas: pixel
(5, 20) is outside the only span (0, 8) of row 5, and row 15 has an empty
AET; both keep the background value 7. -/
theorem C10_fill_frame_witness :
    FillPoly.fill_polygon intOps (fun a b : ℤ => a + b) (fun _ _ => (7 : ℤ)) 20
      square 1 .NonZero 5 20 = 7 ∧
    FillPoly.fill_polygon intOps (fun a b : ℤ => a + b) (fun _ _ => (7 : ℤ)) 20
      square 1 .NonZero 15 3 = 7 := by
  constructor
  · refine (C10_fill_frame intOps (fun a b : ℤ => a + b) (fun _ _ => (7 : ℤ)) 20
      square 1 .NonZero 5 20).1 ?_
    intro lo hi hmem
    rw [show FillPoly.rowSpans .NonZero
        (FillPoly.aetAt (FillPoly.net_from_polygon intOps square) 5) = [(0, 8)]
      from by decide] at hmem
    obtain ⟨h1, h2⟩ := Prod.mk.injEq .. |>.mp (List.mem_singleton.mp hmem)
    omega
  · exact (C10_fill_frame intOps (fun a b : ℤ => a + b) (fun _ _ => (7 : ℤ)) 20
      square 1 .NonZero 15 3).2 (by decide)

/-- Claim C6: the half-open ceiling convention. The writer's column list for
a span (low, high) is exactly the integer columns in [low, high); the spans
of a row are exactly the ceilings of its real-valued boundary pairs;
painting touches a row's pixel exactly when its column is in the span's
column list; the ceiling conversion sends a real boundary q to the first
column c with q ≤ c, so a crossing exactly on an integer column belongs to
that column (the pixel on its right); and polygon_interior's per-column test
marks column c by the rule applied to the signed crossing total at x ≤ c. -/
theorem C6_ceiling_convention :
    (∀ lo hi c : ℕ, c ∈ FillPoly.spanCols (lo, hi) ↔ lo ≤ c ∧ c < hi) ∧
    (∀ (rule : FillRule) (aet : List FillPoly.ScanlineEdge),
        FillPoly.rowSpans rule aet =
          (FillPoly.pairUp (FillPoly.rowBoundaries rule aet)).map
            fun q => (FillPoly.f64CeilAsUsize q.1.1, FillPoly.f64CeilAsUsize q.2.1)) ∧
    (∀ (C : Type) (blend : C → C → C) (color : C) (row : ℕ) (cv : FillPoly.Canvas C)
        (span : ℕ × ℕ) (c : ℕ), c ∈ FillPoly.spanCols span →
          FillPoly.paintSpan blend color row cv span row c = blend (cv row c) color) ∧
    (∀ (C : Type) (blend : C → C → C) (color : C) (row : ℕ) (cv : FillPoly.Canvas C)
        (span : ℕ × ℕ) (r c : ℕ), r ≠ row ∨ c ∉ FillPoly.spanCols span →
          FillPoly.paintSpan blend color row cv span r c = cv r c) ∧
    (∀ (q : ℚ) (c : ℕ), 0 ≤ q → q ≤ (usizeMax : ℚ) →
        ((FillPoly.f64CeilAsUsize q ≤ c ↔ q ≤ (c : ℚ)) ∧
          (c < FillPoly.f64CeilAsUsize q ↔ (c : ℚ) < q))) ∧
    (∀ (rule : FillRule) (pts : List (ℚ × Bool)) (width c : ℕ), c < width →
        (ScanLine.rowBools rule (sortPoints pts) width).getD c false =
          rule.check (sumLE pts c)) := by
  refine ⟨mem_spanCols, ?_,
    fun C blend color row cv span c h => paintSpan_mem blend color row cv span c h,
    fun C blend color row cv span r c h => paintSpan_ne blend color row cv span r c h,
    f64CeilAsUsize_spec,
    fun rule pts width c hc => rowBools_getD rule pts width c hc⟩
  intro rule aet
  rw [FillPoly.rowSpans, pairUp_map]

/-- Witness for C6 at concrete spans, boundaries and crossing lists. -/
theorem C6_ceiling_convention_witness :
    (2 ∈ FillPoly.spanCols (1, 4) ↔ 1 ≤ 2 ∧ 2 < 4) ∧
    FillPoly.paintSpan (fun a b : ℤ => a + b) 1 0 (fun _ _ => 5) (1, 4) 0 2 = 5 + 1 ∧
    FillPoly.paintSpan (fun a b : ℤ => a + b) 1 0 (fun _ _ => 5) (1, 4) 0 6 = 5 ∧
    (FillPoly.f64CeilAsUsize (mkRat 5 2) ≤ 3 ↔ mkRat 5 2 ≤ ((3 : ℕ) : ℚ)) ∧
    (ScanLine.rowBools .NonZero (sortPoints [((1 : ℚ), true)]) 4).getD 2 false =
      FillRule.check .NonZero (sumLE [((1 : ℚ), true)] 2) := by
  refine ⟨C6_ceiling_convention.1 1 4 2, ?_, ?_, ?_,
    C6_ceiling_convention.2.2.2.2.2 .NonZero [((1 : ℚ), true)] 4 2 (by decide)⟩
  · exact C6_ceiling_convention.2.2.1 ℤ (fun a b => a + b) 1 0 (fun _ _ => 5) (1, 4) 2
      (by decide)
  · exact C6_ceiling_convention.2.2.2.1 ℤ (fun a b => a + b) 1 0 (fun _ _ => 5) (1, 4) 0 6
      (Or.inr (by decide))
  · exact (C6_ceiling_convention.2.2.2.2.1 (mkRat 5 2) 3 (by decide) (by decide)).1

end PolygonCanvas

